import Mathlib

/-!
Verification of the edwards25519 core module
(src/libsodium/crypto_core/ed25519/core_ed25519.c).

Byte buffers are modelled as lists of naturals (one entry per byte);
little-endian interpretation and fixed-width encodings are explicit.
External collaborators that are not part of the given source file
(the ge25519 group primitive, the sc25519 scalar primitive, the SHA-512
streaming hash, the randombytes source and the sodium_add / sodium_sub /
sodium_is_zero utilities) are modelled from the specification, as noted
on each definition; everything else is a direct translation of the C code.
-/

/-- Little-endian integer value of a byte list. -/
def leVal : List Nat → Nat
  | [] => 0
  | b :: r => b + 256 * leVal r

/-- Little-endian encoding of a natural number in n bytes
(truncating modulo 2^(8*n)). -/
def leBytes : Nat → Nat → List Nat
  | 0, _ => []
  | n + 1, k => k % 256 :: leBytes n (k / 256)

theorem length_leBytes (n k : Nat) : (leBytes n k).length = n := by
  induction n generalizing k with
  | zero => rfl
  | succ m ih => simp [leBytes, ih]

theorem leVal_leBytes (n k : Nat) : leVal (leBytes n k) = k % 2 ^ (8 * n) := by
  induction n generalizing k with
  | zero => simp [leBytes, leVal, Nat.mod_one]
  | succ m ih =>
    have hpow : (2 : Nat) ^ (8 * (m + 1)) = 256 * 2 ^ (8 * m) := by
      rw [Nat.mul_succ, Nat.pow_add]; ring
    rw [leBytes, leVal, ih, hpow]
    have hk := Nat.div_add_mod k 256
    have hq := Nat.div_add_mod (k / 256) (2 ^ (8 * m))
    -- write k as 256 * (2^(8m)) * (k/256 / 2^(8m)) + (k % 256 + 256 * (k/256 % 2^(8m)))
    have hlt : k % 256 + 256 * (k / 256 % 2 ^ (8 * m)) < 256 * 2 ^ (8 * m) := by
      have h1 : k % 256 < 256 := Nat.mod_lt _ (by norm_num)
      have h2 : k / 256 % 2 ^ (8 * m) < 2 ^ (8 * m) :=
        Nat.mod_lt _ (Nat.pos_pow_of_pos _ (by norm_num))
      calc k % 256 + 256 * (k / 256 % 2 ^ (8 * m))
          < 256 + 256 * (k / 256 % 2 ^ (8 * m)) := by omega
        _ = 256 * (k / 256 % 2 ^ (8 * m) + 1) := by ring
        _ ≤ 256 * 2 ^ (8 * m) := Nat.mul_le_mul_left _ (by omega)
    have hdecomp : k = k % 256 + 256 * (k / 256 % 2 ^ (8 * m)) +
        (k / 256 / 2 ^ (8 * m)) * (256 * 2 ^ (8 * m)) := by
      nlinarith [hk, hq]
    calc k % 256 + 256 * (k / 256 % 2 ^ (8 * m))
        = (k % 256 + 256 * (k / 256 % 2 ^ (8 * m))) % (256 * 2 ^ (8 * m)) :=
          (Nat.mod_eq_of_lt hlt).symm
      _ = (k % 256 + 256 * (k / 256 % 2 ^ (8 * m)) +
            (k / 256 / 2 ^ (8 * m)) * (256 * 2 ^ (8 * m))) % (256 * 2 ^ (8 * m)) :=
          (Nat.add_mul_mod_self_right _ _ _).symm
      _ = k % (256 * 2 ^ (8 * m)) := by rw [← hdecomp]

theorem leVal_append (a b : List Nat) :
    leVal (a ++ b) = leVal a + 2 ^ (8 * a.length) * leVal b := by
  induction a with
  | nil => simp [leVal]
  | cons x xs ih =>
    have hpow : (2 : Nat) ^ (8 * (xs.length + 1)) = 256 * 2 ^ (8 * xs.length) := by
      rw [Nat.mul_succ, Nat.pow_add]; ring
    simp only [List.cons_append, leVal, List.length_cons, hpow]
    rw [show xs.append b = xs ++ b from rfl, ih]
    ring

theorem leVal_replicate_zero (n : Nat) : leVal (List.replicate n 0) = 0 := by
  induction n with
  | zero => rfl
  | succ m ih => simp [List.replicate, leVal, ih]

theorem leVal_lt_of_bytes (s : List Nat) (h : ∀ b ∈ s, b < 256) :
    leVal s < 2 ^ (8 * s.length) := by
  induction s with
  | nil => simp [leVal]
  | cons x xs ih =>
    have hx : x < 256 := h x (by simp)
    have hxs : leVal xs < 2 ^ (8 * xs.length) := ih (fun b hb => h b (by simp [hb]))
    have hpow : (2 : Nat) ^ (8 * (xs.length + 1)) = 256 * 2 ^ (8 * xs.length) := by
      rw [Nat.mul_succ, Nat.pow_add]; ring
    simp only [leVal, List.length_cons, hpow]
    nlinarith

theorem leVal_eq_zero_iff (s : List Nat) : leVal s = 0 ↔ ∀ b ∈ s, b = 0 := by
  induction s with
  | nil => simp [leVal]
  | cons x xs ih =>
    simp only [leVal, List.mem_cons]
    constructor
    · intro h
      have hx : x = 0 := by omega
      have hxs : leVal xs = 0 := by omega
      intro b hb
      rcases hb with hb | hb
      · exact hb ▸ hx
      · exact ih.mp hxs b hb
    · intro h
      have hx : x = 0 := h x (Or.inl rfl)
      have hxs : leVal xs = 0 := ih.mpr (fun b hb => h b (Or.inr hb))
      omega

/-- The group order constant L, the little-endian byte array from the source. -/
def L_bytes : List Nat :=
  [0xed, 0xd3, 0xf5, 0x5c, 0x1a, 0x63, 0x12, 0x58,
   0xd6, 0x9c, 0xf7, 0xa2, 0xde, 0xf9, 0xde, 0x14,
   0x00, 0x00, 0x00, 0x00, 0x00, 0x00, 0x00, 0x00,
   0x00, 0x00, 0x00, 0x00, 0x00, 0x00, 0x00, 0x10]

/-- The group order as an integer, 2^252 + 27742317777372353535851937790883648493
(the comment above the L constant in the source). -/
def Lval : Nat := 2 ^ 252 + 27742317777372353535851937790883648493

theorem leVal_L_bytes : leVal L_bytes = Lval := by decide

/-! ## Spec-modelled byte-buffer and scalar primitives

The following collaborators are used by the source file but are not part of
it (they live in other parts of the library).  They are modelled from the
specification's description of the interfaces this core consumes. -/

/-- Modelled from the spec: the big-integer addition utility (sodium_add)
adds two little-endian buffers over the first len bytes in place,
computing (a + b) mod 2^(8*len) there; bytes past len are left unchanged. -/
def sodium_add (a b : List Nat) (len : Nat) : List Nat :=
  leBytes len ((leVal (a.take len) + leVal (b.take len)) % 2 ^ (8 * len)) ++ a.drop len

/-- Modelled from the spec: the big-integer subtraction utility (sodium_sub)
subtracts b from a with borrow over the first len bytes in place,
computing (a - b) mod 2^(8*len) there; bytes past len are left unchanged. -/
def sodium_sub (a b : List Nat) (len : Nat) : List Nat :=
  leBytes len
    ((leVal (a.take len) + (2 ^ (8 * len) - leVal (b.take len) % 2 ^ (8 * len)))
      % 2 ^ (8 * len)) ++ a.drop len

/-- Modelled from the spec: sodium_is_zero returns 1 when the first len bytes
are all zero and 0 otherwise. -/
def sodium_is_zero (s : List Nat) (len : Nat) : Nat :=
  if (s.take len).all (fun b => b == 0) then 1 else 0

/-- Modelled from the spec: the scalar primitive sc25519_reduce reduces an
arbitrary 64-byte little-endian integer mod L, leaving the canonical 32-byte
result in the first 32 bytes of the buffer.  This definition is the
composition of that reduction with reading back those 32 bytes, which is
how every call site in the source consumes it. -/
def sc25519_reduce32 (t : List Nat) : List Nat :=
  leBytes 32 (leVal (t.take 64) % Lval)

/-- Modelled from the spec: the scalar primitive sc25519_is_canonical tests
whether a 32-byte little-endian scalar is strictly below L. -/
def sc25519_is_canonical (s : List Nat) : Bool :=
  decide (leVal (s.take 32) < Lval)

/-- Binary modular exponentiation, used to model Fermat inversion. -/
def powMod (b e m : Nat) : Nat :=
  if h : e = 0 then 1 % m
  else
    let r := powMod b (e / 2) m
    if e % 2 = 0 then r * r % m else r * r % m * b % m
termination_by e
decreasing_by exact Nat.div_lt_self (Nat.pos_of_ne_zero h) (by omega)

/-- Modelled from the spec: the scalar primitive sc25519_invert computes the
delegated modular inverse mod L, realized as the Fermat exponentiation
s^(L-2) mod L (L is prime); on inputs whose value is congruent to 0 mod L
the result is 0, matching the spec's note that the inverse is ill-defined
there and the output bytes are not meaningful. -/
def sc25519_invert (s : List Nat) : List Nat :=
  leBytes 32 (powMod (leVal (s.take 32)) (Lval - 2) Lval)

/-- Modelled from the spec: the scalar primitive sc25519_mul computes the
delegated modular multiplication mod L of two 32-byte scalars. -/
def sc25519_mul (x y : List Nat) : List Nat :=
  leBytes 32 (leVal (x.take 32) * leVal (y.take 32) % Lval)

/-! ## Scalar ring operations, translated from the source -/

/-- crypto_core_ed25519_scalar_reduce: copy the 64-byte input, reduce it
mod L in place, and return the first 32 bytes. -/
def crypto_core_ed25519_scalar_reduce (s : List Nat) : List Nat :=
  sc25519_reduce32 (s.take 64)

/-- crypto_core_ed25519_scalar_add: zero-extend both 32-byte operands into
64-byte buffers, call sodium_add on them with length
crypto_core_ed25519_SCALARBYTES (32 bytes, exactly as the source does),
then reduce.  Note the source passes the 32-byte scalar size, not the
64-byte buffer size, to sodium_add. -/
def crypto_core_ed25519_scalar_add (x y : List Nat) : List Nat :=
  crypto_core_ed25519_scalar_reduce
    (sodium_add (x.take 32 ++ List.replicate 32 0)
      (y.take 32 ++ List.replicate 32 0) 32)

/-- crypto_core_ed25519_scalar_negate: form the 64-byte buffer with L at
byte offset 32, subtract the zero-extended input from it over all 64 bytes,
reduce mod L and return the first 32 bytes. -/
def crypto_core_ed25519_scalar_negate (s : List Nat) : List Nat :=
  sc25519_reduce32
    (sodium_sub (List.replicate 32 0 ++ L_bytes)
      (s.take 32 ++ List.replicate 32 0) 64)

/-- crypto_core_ed25519_scalar_complement: same as negate except the
64-byte minuend has its byte 0 incremented to 1, so the minuend value is
1 + 2^256 * L. -/
def crypto_core_ed25519_scalar_complement (s : List Nat) : List Nat :=
  sc25519_reduce32
    (sodium_sub (1 :: (List.replicate 31 0 ++ L_bytes))
      (s.take 32 ++ List.replicate 32 0) 64)

/-- crypto_core_ed25519_scalar_sub: negate y, then add. -/
def crypto_core_ed25519_scalar_sub (x y : List Nat) : List Nat :=
  crypto_core_ed25519_scalar_add x (crypto_core_ed25519_scalar_negate y)

/-- crypto_core_ed25519_scalar_mul: delegate to sc25519_mul. -/
def crypto_core_ed25519_scalar_mul (x y : List Nat) : List Nat :=
  sc25519_mul x y

/-- crypto_core_ed25519_scalar_invert: delegate to sc25519_invert, writing
its output unconditionally, and return the negation of sodium_is_zero on
the 32-byte input as the status code (-1 when the input bytes are all
zero, 0 otherwise).  The result pair is (output bytes, status). -/
def crypto_core_ed25519_scalar_invert (s : List Nat) : List Nat × Int :=
  (sc25519_invert s, - (sodium_is_zero s 32 : Int))

/-! ## Group primitive interface and point operations -/

/-- Modelled from the spec: the field/group primitive collaborator
(the ge25519 functions), packaged as a record over an abstract type of
decoded curve elements.  frombytes models ge25519_frombytes (decode a
32-byte compressed encoding, which can fail), tobytes models
ge25519_p3_tobytes; addElem and subElem model the composite
p3_to_cached / ge25519_add / ge25519_sub / p1p1_to_p3 pipeline the source
uses for a single group addition or subtraction; from_hash models
ge25519_from_hash (map a 64-byte digest to a 32-byte point encoding). -/
structure GE (E : Type) where
  is_canonical : List Nat → Bool
  has_small_order : List Nat → Bool
  frombytes : List Nat → Option E
  is_on_curve : E → Bool
  is_on_main_subgroup : E → Bool
  addElem : E → E → E
  subElem : E → E → E
  tobytes : E → List Nat
  from_hash : List Nat → List Nat

/-- crypto_core_ed25519_is_valid_point: the short-circuit chain of checks
from the source, in source order: canonical encoding, not small order,
decodes, on curve, in the main subgroup.  Returns 1 only when every check
passes and 0 at the first failure. -/
def crypto_core_ed25519_is_valid_point {E : Type} (G : GE E) (p : List Nat) : Nat :=
  if G.is_canonical p = false then 0
  else if G.has_small_order p = true then 0
  else
    match G.frombytes p with
    | none => 0
    | some e =>
      if G.is_on_curve e = false then 0
      else if G.is_on_main_subgroup e = false then 0
      else 1

/-- crypto_core_ed25519_add: decode both operands and check each is on the
curve, failing (with no output, modelled as none) if either step fails;
otherwise add the decoded elements and re-encode. -/
def crypto_core_ed25519_add {E : Type} (G : GE E) (p q : List Nat) :
    Option (List Nat) :=
  match G.frombytes p with
  | none => none
  | some pe =>
    if G.is_on_curve pe = false then none
    else
      match G.frombytes q with
      | none => none
      | some qe =>
        if G.is_on_curve qe = false then none
        else some (G.tobytes (G.addElem pe qe))

/-- crypto_core_ed25519_sub: same checks as add, with curve subtraction. -/
def crypto_core_ed25519_sub {E : Type} (G : GE E) (p q : List Nat) :
    Option (List Nat) :=
  match G.frombytes p with
  | none => none
  | some pe =>
    if G.is_on_curve pe = false then none
    else
      match G.frombytes q with
      | none => none
      | some qe =>
        if G.is_on_curve qe = false then none
        else some (G.tobytes (G.subElem pe qe))

/-- Decode failure for a group-operation operand: either the bytes fail to
decode, or the decoded element is not on the curve. -/
def decodeFails {E : Type} (G : GE E) (p : List Nat) : Prop :=
  G.frombytes p = none ∨ ∃ e, G.frombytes p = some e ∧ G.is_on_curve e = false

/-! ## Hash-to-curve expansion, translated from the source -/

/-- The trailing length byte t[3] of the domain-separation tag:
the source computes (unsigned char) suite_len + ctx_len and stores it in
a byte, hence the two reductions mod 256. -/
def stp_tag (suite ctx : List Nat) : Nat :=
  (suite.length % 256 + ctx.length) % 256

/-- The byte stream hashed to produce u0 in _string_to_points: a 128-byte
zero block, the message, the four bytes t[0..3] = [0, n*48 mod 256, 0, tag]
(the source passes all four bytes of t in a single update), then suite and
ctx.  Note the tag byte t[3] is hashed before suite and ctx. -/
def stp_transcript0 (n : Nat) (suite ctx msg : List Nat) : List Nat :=
  List.replicate 128 0 ++ msg ++ [0, n * 48 % 256, 0, stp_tag suite ctx] ++ suite ++ ctx

/-- The byte stream hashed in iteration i of the expansion loop: the
current 64-byte block, then the two bytes t[2..3] = [counter, tag]
(the source passes t+2 with length 2 in a single update), then suite and
ctx.  The counter byte t[2] has been incremented i+1 times. -/
def stp_blockInput (suite ctx prev : List Nat) (i : Nat) : List Nat :=
  prev ++ [(i + 1) % 256, stp_tag suite ctx] ++ suite ++ ctx

/-- Bytewise XOR of two equal-length buffers. -/
def xorBytes (a b : List Nat) : List Nat :=
  List.zipWith Nat.xor a b

/-- The 64-byte digest stored in block slot i of the u buffer after
iteration i of the expansion loop: block 0 hashes u0 itself; block i+1
hashes u0 XORed with the previous block digest. -/
def stp_block (Hash : List Nat → List Nat) (suite ctx u0 : List Nat) :
    Nat → List Nat
  | 0 => Hash (stp_blockInput suite ctx u0 0)
  | i + 1 =>
    Hash (stp_blockInput suite ctx
      (xorBytes u0 (stp_block Hash suite ctx u0 i)) (i + 1))

/-- The u buffer contents after the expansion loop: the concatenation of
the n block digests. -/
def stp_uStream (Hash : List Nat → List Nat) (n : Nat)
    (suite ctx msg : List Nat) : List Nat :=
  ((List.range n).map
    (stp_block Hash suite ctx (Hash (stp_transcript0 n suite ctx msg)))).flatten

/-- The 64-byte field-seed buffer passed to ge25519_from_hash for output
index i: 16 zero bytes followed by the 48 bytes of the u buffer starting
at offset i*48 (memset of the first 64-48 bytes, memcpy of 48 bytes from
u + i*48). -/
def stp_seed (Hash : List Nat → List Nat) (n : Nat)
    (suite ctx msg : List Nat) (i : Nat) : List Nat :=
  List.replicate 16 0 ++ ((stp_uStream Hash n suite ctx msg).drop (i * 48)).take 48

/-- _string_to_points: reject when n > 2, suite_len > 255 or
ctx_len > 255 - suite_len, before any hashing; otherwise produce the n
32-byte points obtained by mapping each seed through ge25519_from_hash. -/
def _string_to_points {E : Type} (G : GE E) (Hash : List Nat → List Nat)
    (n : Nat) (suite ctx msg : List Nat) : Option (List (List Nat)) :=
  if n > 2 ∨ suite.length > 255 ∨ ctx.length > 255 - suite.length then none
  else
    some ((List.range n).map
      (fun i => G.from_hash (stp_seed Hash n suite ctx msg i)))

/-- The ASCII bytes of the NU suite string "edwards25519_XMD:SHA-512_ELL2_NU_". -/
def suiteNU : List Nat :=
  [101, 100, 119, 97, 114, 100, 115, 50, 53, 53, 49, 57, 95, 88, 77, 68,
   58, 83, 72, 65, 45, 53, 49, 50, 95, 69, 76, 76, 50, 95, 78, 85, 95]

/-- The ASCII bytes of the RO suite string "edwards25519_XMD:SHA-512_ELL2_RO_". -/
def suiteRO : List Nat :=
  [101, 100, 119, 97, 114, 100, 115, 50, 53, 53, 49, 57, 95, 88, 77, 68,
   58, 83, 72, 65, 45, 53, 49, 50, 95, 69, 76, 76, 50, 95, 82, 79, 95]

/-- crypto_core_ed25519_from_string: run _string_to_points with n = 1 and
the NU suite, returning the single point. -/
def crypto_core_ed25519_from_string {E : Type} (G : GE E)
    (Hash : List Nat → List Nat) (ctx msg : List Nat) : Option (List Nat) :=
  (_string_to_points G Hash 1 suiteNU ctx msg).map (fun l => l.getD 0 [])

/-- crypto_core_ed25519_from_string_ro: run _string_to_points with n = 2
and the RO suite, then combine the two points with crypto_core_ed25519_add
(whose failure result is passed through). -/
def crypto_core_ed25519_from_string_ro {E : Type} (G : GE E)
    (Hash : List Nat → List Nat) (ctx msg : List Nat) : Option (List Nat) :=
  match _string_to_points G Hash 2 suiteRO ctx msg with
  | none => none
  | some l => crypto_core_ed25519_add G (l.getD 0 []) (l.getD 1 [])

/-! ## Random scalar sampling, translated from the source -/

/-- One candidate of the rejection-sampling loop: take the 32 drawn bytes
and clear the top three bits of the last byte (r[31] &= 0x1f). -/
def scalar_random_mask (d : List Nat) : List Nat :=
  d.take 31 ++ [Nat.land (d.getD 31 0) 0x1f]

/-- crypto_core_ed25519_scalar_random over an explicit sequence of draws
from the randomness source: mask each successive draw and return the first
masked candidate that is canonical and not all-zero; none when the given
draw sequence is exhausted without acceptance (the C loop would keep
drawing). -/
def crypto_core_ed25519_scalar_random : List (List Nat) → Option (List Nat)
  | [] => none
  | d :: rest =>
    let r := scalar_random_mask d
    if sc25519_is_canonical r = false ∨ sodium_is_zero r 32 = 1 then
      crypto_core_ed25519_scalar_random rest
    else some r

/-! ## Facts about the order constant -/

theorem Lval_pos : 0 < Lval := by norm_num [Lval]

theorem one_lt_Lval : 1 < Lval := by norm_num [Lval]

theorem Lval_lt_two_pow_253 : Lval < 2 ^ 253 := by norm_num [Lval]

theorem Lval_lt_two_pow_256 : Lval < 2 ^ 256 := by norm_num [Lval]

theorem two_mul_Lval_lt : 2 * Lval < 2 ^ 256 := by norm_num [Lval]

theorem Lval_lt_two_pow_512 : Lval < 2 ^ 512 := by norm_num [Lval]


/-! ## Value-level descriptions of the scalar operations -/

theorem pow_8_32_eq : (2 : Nat) ^ (8 * 32) = 2 ^ 256 := by norm_num

/-- The scalar addition computes ((x + y) mod 2^256) mod L: the carry out
of byte 31 is dropped because the source calls sodium_add with the 32-byte
scalar length rather than the 64-byte buffer length. -/
theorem scalar_add_eq (x y : List Nat) (hx : x.length = 32) (hy : y.length = 32) :
    crypto_core_ed25519_scalar_add x y =
      leBytes 32 ((leVal x + leVal y) % 2 ^ 256 % Lval) := by
  have hx' : x.take 32 = x := List.take_of_length_le (by omega)
  have hy' : y.take 32 = y := List.take_of_length_le (by omega)
  unfold crypto_core_ed25519_scalar_add sodium_add
  rw [hx', hy']
  have htx : (x ++ List.replicate 32 0).take 32 = x := by
    rw [← hx]; exact List.take_left x _
  have hty : (y ++ List.replicate 32 0).take 32 = y := by
    rw [← hy]; exact List.take_left y _
  have hdx : (x ++ List.replicate 32 0).drop 32 = List.replicate 32 0 := by
    rw [← hx]; exact List.drop_left x _
  rw [htx, hty, hdx]
  unfold crypto_core_ed25519_scalar_reduce sc25519_reduce32
  set v := (leVal x + leVal y) % 2 ^ (8 * 32) with hv
  have htake : (leBytes 32 v ++ List.replicate 32 0).take 64 =
      leBytes 32 v ++ List.replicate 32 0 :=
    List.take_of_length_le (by simp [length_leBytes])
  rw [htake, htake, leVal_append, leVal_replicate_zero, leVal_leBytes]
  have hvlt : v < 2 ^ (8 * 32) := Nat.mod_lt _ (Nat.pos_pow_of_pos _ (by norm_num))
  simp only [mul_zero, add_zero, Nat.mod_eq_of_lt hvlt]

/-- The scalar negation computes (2^256 * L - x) mod L for a canonical
input x, i.e. (-x) mod L. -/
theorem scalar_negate_eq (x : List Nat) (hx : x.length = 32)
    (hcan : leVal x < Lval) :
    crypto_core_ed25519_scalar_negate x =
      leBytes 32 ((2 ^ 256 * Lval - leVal x) % Lval) := by
  have hx' : x.take 32 = x := List.take_of_length_le (by omega)
  unfold crypto_core_ed25519_scalar_negate sodium_sub sc25519_reduce32
  rw [hx']
  have ht : (List.replicate 32 0 ++ L_bytes).take 64 =
      List.replicate 32 0 ++ L_bytes := List.take_of_length_le (by decide)
  have hs : (x ++ List.replicate 32 0).take 64 = x ++ List.replicate 32 0 := by
    refine List.take_of_length_le ?_
    simp [hx]
  have htd : (List.replicate 32 0 ++ L_bytes).drop 64 = [] := by decide
  rw [ht, hs, htd]
  have hvt : leVal (List.replicate 32 0 ++ L_bytes) = 2 ^ 256 * Lval := by
    rw [leVal_append, leVal_replicate_zero, leVal_L_bytes]
    simp
  have hvs : leVal (x ++ List.replicate 32 0) = leVal x := by
    rw [leVal_append, leVal_replicate_zero]
    simp
  rw [hvt, hvs]
  set X := leVal x with hX
  have hL256 := Lval_lt_two_pow_256
  have hX512 : X < 2 ^ (8 * 64) := by omega
  have hXA : X ≤ 2 ^ 256 * Lval := by omega
  have hA : 2 ^ 256 * Lval < 2 ^ (8 * 64) := by omega
  rw [Nat.mod_eq_of_lt hX512]
  have hsum : 2 ^ 256 * Lval + (2 ^ (8 * 64) - X) =
      (2 ^ 256 * Lval - X) + 2 ^ (8 * 64) := by omega
  rw [hsum, Nat.add_mod_right, List.append_nil,
    List.take_of_length_le (le_of_eq (length_leBytes 64 _)), leVal_leBytes,
    Nat.mod_eq_of_lt (show 2 ^ 256 * Lval - X < 2 ^ (8 * 64) by omega),
    Nat.mod_eq_of_lt (show 2 ^ 256 * Lval - X < 2 ^ (8 * 64) by omega)]

/-- The scalar complement computes (1 + 2^256 * L - x) mod L for a
canonical input x, i.e. (1 - x) mod L. -/
theorem scalar_complement_eq (x : List Nat) (hx : x.length = 32)
    (hcan : leVal x < Lval) :
    crypto_core_ed25519_scalar_complement x =
      leBytes 32 ((1 + 2 ^ 256 * Lval - leVal x) % Lval) := by
  have hx' : x.take 32 = x := List.take_of_length_le (by omega)
  unfold crypto_core_ed25519_scalar_complement sodium_sub sc25519_reduce32
  rw [hx']
  have ht : (1 :: (List.replicate 31 0 ++ L_bytes)).take 64 =
      1 :: (List.replicate 31 0 ++ L_bytes) := List.take_of_length_le (by decide)
  have hs : (x ++ List.replicate 32 0).take 64 = x ++ List.replicate 32 0 := by
    refine List.take_of_length_le ?_
    simp [hx]
  have htd : (1 :: (List.replicate 31 0 ++ L_bytes)).drop 64 = [] := by decide
  rw [ht, hs, htd]
  have hvt : leVal (1 :: (List.replicate 31 0 ++ L_bytes)) = 1 + 2 ^ 256 * Lval := by
    show 1 + 256 * leVal (List.replicate 31 0 ++ L_bytes) = 1 + 2 ^ 256 * Lval
    rw [leVal_append, leVal_replicate_zero, leVal_L_bytes]
    simp
    ring
  have hvs : leVal (x ++ List.replicate 32 0) = leVal x := by
    rw [leVal_append, leVal_replicate_zero]
    simp
  rw [hvt, hvs]
  set X := leVal x with hX
  have hL256 := Lval_lt_two_pow_256
  have hX512 : X < 2 ^ (8 * 64) := by omega
  have hXA : X ≤ 1 + 2 ^ 256 * Lval := by omega
  have hA : 1 + 2 ^ 256 * Lval < 2 ^ (8 * 64) := by omega
  rw [Nat.mod_eq_of_lt hX512]
  have hsum : 1 + 2 ^ 256 * Lval + (2 ^ (8 * 64) - X) =
      (1 + 2 ^ 256 * Lval - X) + 2 ^ (8 * 64) := by omega
  rw [hsum, Nat.add_mod_right, List.append_nil,
    List.take_of_length_le (le_of_eq (length_leBytes 64 _)), leVal_leBytes,
    Nat.mod_eq_of_lt (show 1 + 2 ^ 256 * Lval - X < 2 ^ (8 * 64) by omega),
    Nat.mod_eq_of_lt (show 1 + 2 ^ 256 * Lval - X < 2 ^ (8 * 64) by omega)]

/-- Claim C1: the claim states scalar_add returns the canonical encoding of
the exact integer sum (x + y) mod L with no carry lost.  Evaluating the
translated code at x = y = the 32-byte all-0xff string shows the carry out
of bit 256 is dropped (sodium_add is called with length 32): the output
encodes (2^256 - 2) mod L, which differs from the exact-sum result
(leVal x + leVal y) mod L = (2^257 - 2) mod L. -/
theorem scalar_add_carry_dropped :
    crypto_core_ed25519_scalar_add (List.replicate 32 255) (List.replicate 32 255) =
      leBytes 32 ((2 ^ 256 - 2) % Lval) ∧
    crypto_core_ed25519_scalar_add (List.replicate 32 255) (List.replicate 32 255) ≠
      leBytes 32 ((leVal (List.replicate 32 255) + leVal (List.replicate 32 255)) % Lval) := by
  constructor
  · decide
  · decide

/-- Claim C9: for every canonical 32-byte scalar x,
add(x, negate(x)) is the canonical all-zero scalar and
add(x, complement(x)) is the canonical encoding of 1. -/
theorem scalar_neg_comp_identities (x : List Nat) (hx : x.length = 32)
    (hcan : leVal x < Lval) :
    crypto_core_ed25519_scalar_add x (crypto_core_ed25519_scalar_negate x) =
      leBytes 32 0 ∧
    crypto_core_ed25519_scalar_add x (crypto_core_ed25519_scalar_complement x) =
      leBytes 32 1 := by
  have hL := Lval_pos
  have hL256 := Lval_lt_two_pow_256
  have h2L := two_mul_Lval_lt
  set X := leVal x with hX
  constructor
  · rw [scalar_negate_eq x hx hcan,
      scalar_add_eq x _ hx (length_leBytes 32 _), leVal_leBytes]
    set N := (2 ^ 256 * Lval - X) % Lval with hN
    have hNlt : N < Lval := Nat.mod_lt _ hL
    have hN256 : N % 2 ^ (8 * 32) = N := Nat.mod_eq_of_lt (by omega)
    rw [hN256]
    have hXN : (X + N) % 2 ^ 256 = X + N := Nat.mod_eq_of_lt (by omega)
    rw [hXN, hN, Nat.add_mod_mod]
    have hXle : X ≤ 2 ^ 256 * Lval := by omega
    have hsum : X + (2 ^ 256 * Lval - X) = 2 ^ 256 * Lval := by omega
    rw [hsum, Nat.mul_mod_left]
  · rw [scalar_complement_eq x hx hcan,
      scalar_add_eq x _ hx (length_leBytes 32 _), leVal_leBytes]
    set C := (1 + 2 ^ 256 * Lval - X) % Lval with hC
    have hClt : C < Lval := Nat.mod_lt _ hL
    have hC256 : C % 2 ^ (8 * 32) = C := Nat.mod_eq_of_lt (by omega)
    rw [hC256]
    have hXC : (X + C) % 2 ^ 256 = X + C := Nat.mod_eq_of_lt (by omega)
    rw [hXC, hC, Nat.add_mod_mod]
    have hXle : X ≤ 1 + 2 ^ 256 * Lval := by omega
    have hsum : X + (1 + 2 ^ 256 * Lval - X) = 1 + 2 ^ 256 * Lval := by omega
    rw [hsum, Nat.add_mul_mod_self_right, Nat.mod_eq_of_lt one_lt_Lval]

/-- Witness for C9 at the concrete canonical scalar 5. -/
theorem scalar_neg_comp_identities_witness :
    crypto_core_ed25519_scalar_add (leBytes 32 5)
        (crypto_core_ed25519_scalar_negate (leBytes 32 5)) = leBytes 32 0 ∧
    crypto_core_ed25519_scalar_add (leBytes 32 5)
        (crypto_core_ed25519_scalar_complement (leBytes 32 5)) = leBytes 32 1 :=
  scalar_neg_comp_identities (leBytes 32 5) (by decide) (by decide)

/-! ## Scalar inversion: failure signalling -/

/-- sodium_is_zero, restated with a propositional condition. -/
theorem sodium_is_zero_eq (s : List Nat) (len : Nat) :
    sodium_is_zero s len = if ∀ b ∈ s.take len, b = 0 then 1 else 0 := by
  unfold sodium_is_zero
  by_cases h : ∀ b ∈ s.take len, b = 0
  · have hall : ((s.take len).all fun b => b == 0) = true := by
      rw [List.all_eq_true]
      intro b hb
      exact beq_iff_eq.mpr (h b hb)
    rw [hall, if_pos rfl, if_pos h]
  · have hall : ((s.take len).all fun b => b == 0) = false := by
      rw [List.all_eq_false]
      push_neg at h
      obtain ⟨b, hb, hbne⟩ := h
      exact ⟨b, hb, by simpa using hbne⟩
    rw [hall, if_neg (by simp), if_neg h]

/-- Claim C7: scalar_invert always writes the sc25519_invert output to the
recip buffer, and its status code is -1 exactly when the 32 input bytes
are all zero and 0 (success) exactly when some input byte is nonzero;
it is the only scalar operation with a status channel (every other scalar
operation in this development is a total function into byte lists). -/
theorem scalar_invert_spec (s : List Nat) :
    (crypto_core_ed25519_scalar_invert s).1 = sc25519_invert s ∧
    ((crypto_core_ed25519_scalar_invert s).2 = -1 ↔ ∀ b ∈ s.take 32, b = 0) ∧
    ((crypto_core_ed25519_scalar_invert s).2 = 0 ↔ ¬ ∀ b ∈ s.take 32, b = 0) := by
  have hsnd : (crypto_core_ed25519_scalar_invert s).2 = - (sodium_is_zero s 32 : Int) :=
    rfl
  rw [hsnd, sodium_is_zero_eq]
  by_cases h : ∀ b ∈ s.take 32, b = 0
  · rw [if_pos h]
    exact ⟨rfl, iff_of_true (by norm_num) h,
      iff_of_false (by norm_num) (not_not_intro h)⟩
  · rw [if_neg h]
    exact ⟨rfl, iff_of_false (by norm_num) h, iff_of_true (by norm_num) h⟩

/-- Witness for C7 at the all-zero input and at the encoding of 1. -/
theorem scalar_invert_spec_witness :
    (crypto_core_ed25519_scalar_invert (List.replicate 32 0)).2 = -1 ∧
    (crypto_core_ed25519_scalar_invert (leBytes 32 1)).2 = 0 :=
  ⟨(scalar_invert_spec (List.replicate 32 0)).2.1.mpr (by decide),
   (scalar_invert_spec (leBytes 32 1)).2.2.mpr (by decide)⟩

/-- powMod of a base divisible by the modulus is 0 for every positive
exponent. -/
theorem powMod_eq_zero_of_dvd (b m : Nat) (hdvd : m ∣ b) :
    ∀ e, 1 ≤ e → powMod b e m = 0 := by
  intro e
  induction e using Nat.strong_induction_on with
  | _ e ih =>
    intro he
    obtain ⟨k, hk⟩ := hdvd
    rw [powMod]
    have hne : ¬ e = 0 := by omega
    simp only [hne, dite_false]
    by_cases hpar : e % 2 = 0
    · have h2 : 1 ≤ e / 2 := by omega
      have hrec : powMod b (e / 2) m = 0 := ih (e / 2) (by omega) h2
      simp [hpar, hrec]
    · have hmul : ∀ X : Nat, X % m * b % m = 0 := by
        intro X
        rw [hk, show X % m * (m * k) = X % m * k * m by ring]
        exact Nat.mul_mod_left _ _
      simp [hpar, hmul]

/-- Claim C10: scalar_invert decides failure by testing the input bytes,
not the value mod L: any 32-byte input with at least one nonzero byte
whose value is a multiple of L is reported as a success (status 0), yet
the output bytes encode 0, which is not a multiplicative inverse of
anything mod L. -/
theorem scalar_invert_multiple_of_L (s : List Nat)
    (hnz : ¬ ∀ b ∈ s.take 32, b = 0) (hdvd : Lval ∣ leVal (s.take 32)) :
    (crypto_core_ed25519_scalar_invert s).2 = 0 ∧
    ∀ y, leVal (crypto_core_ed25519_scalar_invert s).1 * y % Lval ≠ 1 := by
  constructor
  · show - (sodium_is_zero s 32 : Int) = 0
    rw [sodium_is_zero_eq, if_neg hnz]
    norm_num
  · intro y
    have hself : powMod (leVal (s.take 32)) (Lval - 2) Lval = 0 :=
      powMod_eq_zero_of_dvd _ _ hdvd _ (by norm_num [Lval])
    show leVal (sc25519_invert s) * y % Lval ≠ 1
    unfold sc25519_invert
    rw [hself, leVal_leBytes, Nat.zero_mod, Nat.zero_mul, Nat.zero_mod]
    omega

/-- Witness for C10 at the input L itself (nonzero bytes, value L). -/
theorem scalar_invert_multiple_of_L_witness :
    (crypto_core_ed25519_scalar_invert L_bytes).2 = 0 ∧
    leVal (crypto_core_ed25519_scalar_invert L_bytes).1 * 1 % Lval ≠ 1 :=
  ⟨(scalar_invert_multiple_of_L L_bytes (by decide) ⟨1, by decide⟩).1,
   (scalar_invert_multiple_of_L L_bytes (by decide) ⟨1, by decide⟩).2 1⟩

/-! ## Random scalar sampling -/

theorem land_31_eq_mod (x : Nat) : Nat.land x 0x1f = x % 32 := by
  show x &&& 31 = x % 32
  have h : (31 : Nat) = 2 ^ 5 - 1 := by norm_num
  rw [h, Nat.and_pow_two_sub_one_eq_mod]

theorem scalar_random_mask_length (d : List Nat) :
    (scalar_random_mask d).length ≤ 32 := by
  unfold scalar_random_mask
  simp

/-- Any masked candidate built from a 32-byte draw of byte values is
bounded below 2^253: the top three bits of the last byte are cleared. -/
theorem scalar_random_mask_lt (d : List Nat) (hd : d.length = 32)
    (hb : ∀ b ∈ d, b < 256) :
    leVal (scalar_random_mask d) < 2 ^ 253 := by
  unfold scalar_random_mask
  rw [leVal_append]
  have hlen : (d.take 31).length = 31 := by simp [hd]
  have hb31 : ∀ b ∈ d.take 31, b < 256 := fun b hb' => hb b (List.mem_of_mem_take hb')
  have h1 : leVal (d.take 31) < 2 ^ (8 * 31) := by
    have := leVal_lt_of_bytes (d.take 31) hb31
    rwa [hlen] at this
  have h2 : Nat.land (d.getD 31 0) 0x1f < 32 := by
    rw [land_31_eq_mod]
    omega
  have h3 : leVal [Nat.land (d.getD 31 0) 0x1f] = Nat.land (d.getD 31 0) 0x1f := by
    simp [leVal]
  rw [hlen, h3]
  have hp : (2 : Nat) ^ (8 * 31) = 2 ^ 248 := by norm_num
  rw [hp]
  omega

/-- Any value accepted by the rejection loop is canonical and nonzero. -/
theorem scalar_random_result (draws : List (List Nat)) (r : List Nat)
    (h : crypto_core_ed25519_scalar_random draws = some r) :
    leVal r < Lval ∧ leVal r ≠ 0 := by
  induction draws with
  | nil => simp [crypto_core_ed25519_scalar_random] at h
  | cons d rest ih =>
    simp only [crypto_core_ed25519_scalar_random] at h
    by_cases hcond : sc25519_is_canonical (scalar_random_mask d) = false ∨
        sodium_is_zero (scalar_random_mask d) 32 = 1
    · rw [if_pos hcond] at h
      exact ih h
    · rw [if_neg hcond] at h
      have hr : scalar_random_mask d = r := Option.some.inj h
      push_neg at hcond
      obtain ⟨hc, hz⟩ := hcond
      have hc' : sc25519_is_canonical (scalar_random_mask d) = true := by
        cases hcb : sc25519_is_canonical (scalar_random_mask d)
        · exact absurd hcb hc
        · rfl
      have htk : (scalar_random_mask d).take 32 = scalar_random_mask d :=
        List.take_of_length_le (scalar_random_mask_length d)
      have hlt : leVal (scalar_random_mask d) < Lval := by
        have := of_decide_eq_true (by simpa [sc25519_is_canonical] using hc')
        rwa [htk] at this
      have hnzb : ¬ ∀ b ∈ (scalar_random_mask d).take 32, b = 0 := by
        intro hall
        apply hz
        rw [sodium_is_zero_eq, if_pos hall]
      have hnz : leVal (scalar_random_mask d) ≠ 0 := by
        intro h0
        apply hnzb
        rw [htk]
        exact (leVal_eq_zero_iff _).mp h0
      rw [← hr]
      exact ⟨hlt, hnz⟩

/-- Claim C8: whenever the rejection loop terminates on a sequence of
draws, the returned scalar is canonical (below L) and nonzero, and every
masked candidate from a 32-byte draw is bounded below 2^253 (top three
bits of the last byte cleared). -/
theorem scalar_random_spec (draws : List (List Nat)) (r d : List Nat)
    (h : crypto_core_ed25519_scalar_random draws = some r)
    (hd32 : d.length = 32) (hdb : ∀ b ∈ d, b < 256) :
    leVal r < Lval ∧ leVal r ≠ 0 ∧ leVal (scalar_random_mask d) < 2 ^ 253 :=
  ⟨(scalar_random_result draws r h).1, (scalar_random_result draws r h).2,
   scalar_random_mask_lt d hd32 hdb⟩

/-- Witness for C8: the loop accepts the draw encoding 1 at once. -/
theorem scalar_random_spec_witness :
    leVal (leBytes 32 1) < Lval ∧ leVal (leBytes 32 1) ≠ 0 ∧
    leVal (scalar_random_mask (List.replicate 32 0)) < 2 ^ 253 :=
  scalar_random_spec [leBytes 32 1] (leBytes 32 1) (List.replicate 32 0)
    (by decide) (by decide) (by decide)

/-! ## Point validation and group operations -/

/-- Claim C4: is_valid_point returns 1 exactly when the encoding is
canonical, the point is not small-order, it decodes, the decoded element
is on the curve and it lies in the main subgroup; the result is always
0 or 1; and any non-canonical or small-order encoding (the identity
encoding among them) yields 0. -/
theorem is_valid_point_spec {E : Type} (G : GE E) (p : List Nat) :
    (crypto_core_ed25519_is_valid_point G p = 1 ↔
      G.is_canonical p = true ∧ G.has_small_order p = false ∧
      ∃ e, G.frombytes p = some e ∧ G.is_on_curve e = true ∧
        G.is_on_main_subgroup e = true) ∧
    (crypto_core_ed25519_is_valid_point G p = 0 ∨
      crypto_core_ed25519_is_valid_point G p = 1) ∧
    (G.is_canonical p = false → crypto_core_ed25519_is_valid_point G p = 0) ∧
    (G.has_small_order p = true → crypto_core_ed25519_is_valid_point G p = 0) := by
  unfold crypto_core_ed25519_is_valid_point
  cases hc : G.is_canonical p with
  | false => simp_all
  | true =>
    cases hs : G.has_small_order p with
    | true => simp_all
    | false =>
      cases hf : G.frombytes p with
      | none => simp_all
      | some e =>
        cases ho : G.is_on_curve e with
        | false => simp_all
        | true =>
          cases hm : G.is_on_main_subgroup e with
          | false => simp_all
          | true => simp_all

/-- The identity-element encoding: a 1 byte followed by 31 zero bytes. -/
def identityEnc : List Nat := 1 :: List.replicate 31 0

/-- A concrete instantiation of the group primitive for witnesses:
elements are the 32-byte encodings themselves, every input decodes,
everything is on the curve, and the small-order test recognizes the
identity encoding. -/
def GEw : GE (List Nat) where
  is_canonical := fun _ => true
  has_small_order := fun p => p == identityEnc
  frombytes := fun p => some p
  is_on_curve := fun _ => true
  is_on_main_subgroup := fun p => !(p == identityEnc)
  addElem := fun a _ => a
  subElem := fun a _ => a
  tobytes := fun e => e
  from_hash := fun d => d.take 32

/-- Witness for C4: the identity encoding is flagged small-order and
rejected. -/
theorem is_valid_point_spec_witness :
    crypto_core_ed25519_is_valid_point GEw identityEnc = 0 :=
  (is_valid_point_spec GEw identityEnc).2.2.2 (by decide)

/-- Claim C5: group add and sub fail exactly when an operand fails to
decode or is not on the curve (producing no output at all, modelled by
none), succeed with the encoded curve sum or difference otherwise, and
never consult the canonicality, small-order or main-subgroup tests
(replacing those three fields leaves the results unchanged). -/
theorem add_sub_spec {E : Type} (G G' : GE E) (p q : List Nat)
    (hfb : G'.frombytes = G.frombytes) (hoc : G'.is_on_curve = G.is_on_curve)
    (hae : G'.addElem = G.addElem) (hse : G'.subElem = G.subElem)
    (htb : G'.tobytes = G.tobytes) :
    (crypto_core_ed25519_add G p q = none ↔ decodeFails G p ∨ decodeFails G q) ∧
    (crypto_core_ed25519_sub G p q = none ↔ decodeFails G p ∨ decodeFails G q) ∧
    (∀ pe qe, G.frombytes p = some pe → G.is_on_curve pe = true →
      G.frombytes q = some qe → G.is_on_curve qe = true →
      crypto_core_ed25519_add G p q = some (G.tobytes (G.addElem pe qe)) ∧
      crypto_core_ed25519_sub G p q = some (G.tobytes (G.subElem pe qe))) ∧
    crypto_core_ed25519_add G' p q = crypto_core_ed25519_add G p q ∧
    crypto_core_ed25519_sub G' p q = crypto_core_ed25519_sub G p q := by
  unfold crypto_core_ed25519_add crypto_core_ed25519_sub decodeFails
  rw [hfb, hoc, hae, hse, htb]
  cases hp : G.frombytes p with
  | none => simp_all
  | some pe =>
    cases hop : G.is_on_curve pe with
    | false => simp_all
    | true =>
      cases hq : G.frombytes q with
      | none => simp_all
      | some qe =>
        cases hoq : G.is_on_curve qe with
        | false => simp_all
        | true => simp_all

/-- A copy of the witness primitive with the three validity-only tests
flipped, used to check they play no role in add and sub. -/
def GEw2 : GE (List Nat) :=
  { GEw with
    is_canonical := fun _ => false
    has_small_order := fun _ => true
    is_on_main_subgroup := fun _ => false }

/-- Witness for C5: flipping the three validity-only tests leaves add and
sub unchanged on concrete inputs, and the success case produces the
encoded element sum. -/
theorem add_sub_spec_witness :
    crypto_core_ed25519_add GEw2 identityEnc identityEnc =
      crypto_core_ed25519_add GEw identityEnc identityEnc ∧
    crypto_core_ed25519_sub GEw2 identityEnc identityEnc =
      crypto_core_ed25519_sub GEw identityEnc identityEnc :=
  ⟨(add_sub_spec GEw GEw2 identityEnc identityEnc rfl rfl rfl rfl rfl).2.2.2.1,
   (add_sub_spec GEw GEw2 identityEnc identityEnc rfl rfl rfl rfl rfl).2.2.2.2⟩

/-! ## Hash-to-curve: transcript layout, seed extraction, length guard -/

/-- Claim C2: the claim says every hash input ends with
suite, ctx and then the one-byte length tag.  Evaluating the translated
transcripts at n = 1, suite = [65], ctx = [66] (tag = 2) shows the code
hashes the tag byte together with the counter bytes, BEFORE suite and
ctx: the u0 transcript is zeros ++ msg ++ [0, 48, 0, tag] ++ suite ++ ctx
and each block transcript is block ++ [counter, tag] ++ suite ++ ctx, so
neither transcript has the tag after ctx. -/
theorem stp_tag_position :
    stp_transcript0 1 [65] [66] [] =
      List.replicate 128 0 ++ [0, 48, 0, 2] ++ [65] ++ [66] ∧
    stp_transcript0 1 [65] [66] [] ≠
      List.replicate 128 0 ++ [0, 48, 0] ++ [65] ++ [66] ++ [2] ∧
    stp_blockInput [65] [66] (List.replicate 64 0) 0 =
      List.replicate 64 0 ++ [1, 2] ++ [65] ++ [66] ∧
    stp_blockInput [65] [66] (List.replicate 64 0) 0 ≠
      List.replicate 64 0 ++ [1] ++ [65] ++ [66] ++ [2] ∧
    (∀ Hash : List Nat → List Nat,
      stp_block Hash [65] [66] (List.replicate 64 0) 0 =
        Hash (stp_blockInput [65] [66] (List.replicate 64 0) 0)) :=
  ⟨by decide, by decide, by decide, by decide, fun _ => rfl⟩

/-- A concrete 64-byte digest function used for witnesses: the j-th output
byte is (input length + j) mod 256. -/
def hashW (l : List Nat) : List Nat :=
  (List.range 64).map (fun j => (l.length + j) % 256)

/-- The seed the claim describes (stated for comparison with the code):
keep the LAST 48 bytes of block digest i and zero-extend on the left. -/
def spec_seed (Hash : List Nat → List Nat) (n : Nat) (suite ctx msg : List Nat)
    (i : Nat) : List Nat :=
  List.replicate 16 0 ++
    (stp_block Hash suite ctx (Hash (stp_transcript0 n suite ctx msg)) i).drop 16

/-- Counterexample for claim C3: already for n = 1 the code's seed is the
FIRST 48 bytes of the single block digest, not its last 48 bytes. -/
theorem stp_seed_not_last_48 :
    stp_seed hashW 1 [65] [] [] 0 ≠ spec_seed hashW 1 [65] [] [] 0 := by
  decide

/-- Claim C3 amended: the concatenation of the 64-byte block digests is
consumed as a stream and seed i is bytes 48*i .. 48*i+47 of that stream,
zero-extended on the left to 64 bytes; so seed 0 is the first 48 bytes of
block 0 and seed 1 is the last 16 bytes of block 0 followed by the first
32 bytes of block 1, and _string_to_points maps each seed through
ge25519_from_hash to produce the output points. -/
theorem stp_seed_stream (Hash : List Nat → List Nat) (suite ctx msg : List Nat)
    (hH : ∀ l, (Hash l).length = 64) :
    stp_seed Hash 2 suite ctx msg 0 =
      List.replicate 16 0 ++
        (stp_block Hash suite ctx (Hash (stp_transcript0 2 suite ctx msg)) 0).take 48 ∧
    stp_seed Hash 2 suite ctx msg 1 =
      List.replicate 16 0 ++
        ((stp_block Hash suite ctx (Hash (stp_transcript0 2 suite ctx msg)) 0).drop 48 ++
          (stp_block Hash suite ctx (Hash (stp_transcript0 2 suite ctx msg)) 1).take 32) ∧
    (∀ (E : Type) (G : GE E), suite.length ≤ 255 → ctx.length ≤ 255 - suite.length →
      _string_to_points G Hash 2 suite ctx msg =
        some [G.from_hash (stp_seed Hash 2 suite ctx msg 0),
              G.from_hash (stp_seed Hash 2 suite ctx msg 1)]) := by
  set u0 := Hash (stp_transcript0 2 suite ctx msg) with hu0
  have hb0 : (stp_block Hash suite ctx u0 0).length = 64 := hH _
  have hb1 : (stp_block Hash suite ctx u0 1).length = 64 := hH _
  have hstream : stp_uStream Hash 2 suite ctx msg =
      stp_block Hash suite ctx u0 0 ++ (stp_block Hash suite ctx u0 1 ++ []) := by
    unfold stp_uStream
    rfl
  refine ⟨?_, ?_, ?_⟩
  · unfold stp_seed
    rw [hstream, List.append_nil]
    simp only [Nat.zero_mul, List.drop_zero]
    rw [List.take_append_eq_append_take,
      show 48 - (stp_block Hash suite ctx u0 0).length = 0 by omega,
      List.take_zero, List.append_nil]
  · unfold stp_seed
    rw [hstream, List.append_nil]
    have h48 : (1 : Nat) * 48 = 48 := by norm_num
    rw [h48, List.drop_append_eq_append_drop,
      show 48 - (stp_block Hash suite ctx u0 0).length = 0 by omega,
      List.drop_zero, List.take_append_eq_append_take,
      List.take_of_length_le (le_of_lt (by simp [hb0])),
      show 48 - ((stp_block Hash suite ctx u0 0).drop 48).length = 32 by
        simp [hb0]]
  · intro E G hsu hcl
    unfold _string_to_points
    rw [if_neg (by omega)]
    rfl

/-- Witness for the amended C3 at the concrete digest function hashW. -/
theorem stp_seed_stream_witness :
    stp_seed hashW 2 [65] [] [] 0 =
      List.replicate 16 0 ++
        (stp_block hashW [65] [] (hashW (stp_transcript0 2 [65] [] [])) 0).take 48 :=
  (stp_seed_stream hashW [65] [] [] (fun l => by simp [hashW])).1

theorem suiteNU_length : suiteNU.length = 33 := by decide

theorem suiteRO_length : suiteRO.length = 33 := by decide

/-- Claim C6: _string_to_points fails exactly when n > 2, or
suite_len > 255, or ctx_len > 255 - suite_len; the failure does not depend
on the hash function (it is decided before any hashing) and produces no
output; from_string and from_string_ro therefore fail exactly when
ctx_len > 222 (their suites have length 33); a 255-byte suite with
nonempty ctx is rejected, and suite_len + ctx_len = 255 with n <= 2 is
accepted.  The hypothesis on G restates the spec's contract that
ge25519_from_hash always yields a decodable on-curve point. -/
theorem string_to_points_guard {E : Type} (G : GE E)
    (Hash : List Nat → List Nat) (n : Nat) (suite ctx msg : List Nat)
    (hG : ∀ d, ∃ e, G.frombytes (G.from_hash d) = some e ∧
      G.is_on_curve e = true) :
    (_string_to_points G Hash n suite ctx msg = none ↔
      n > 2 ∨ suite.length > 255 ∨ ctx.length > 255 - suite.length) ∧
    (∀ (Hash' : List Nat → List Nat),
      (_string_to_points G Hash' n suite ctx msg = none ↔
        _string_to_points G Hash n suite ctx msg = none)) ∧
    (crypto_core_ed25519_from_string G Hash ctx msg = none ↔
      ctx.length > 222) ∧
    (crypto_core_ed25519_from_string_ro G Hash ctx msg = none ↔
      ctx.length > 222) ∧
    (suite.length = 255 → ctx ≠ [] →
      _string_to_points G Hash n suite ctx msg = none) ∧
    (n ≤ 2 → suite.length + ctx.length = 255 →
      _string_to_points G Hash n suite ctx msg ≠ none) := by
  have hguard : ∀ (H : List Nat → List Nat) (m : Nat) (su : List Nat),
      (_string_to_points G H m su ctx msg = none ↔
        m > 2 ∨ su.length > 255 ∨ ctx.length > 255 - su.length) := by
    intro H m su
    unfold _string_to_points
    by_cases h : m > 2 ∨ su.length > 255 ∨ ctx.length > 255 - su.length
    · rw [if_pos h]
      exact iff_of_true rfl h
    · rw [if_neg h]
      exact iff_of_false (by simp) h
  refine ⟨hguard Hash n suite, ?_, ?_, ?_, ?_, ?_⟩
  · intro Hash'
    rw [hguard Hash' n suite, hguard Hash n suite]
  · unfold crypto_core_ed25519_from_string
    rw [Option.map_eq_none', hguard Hash 1 suiteNU, suiteNU_length]
    omega
  · unfold crypto_core_ed25519_from_string_ro
    by_cases h : ctx.length > 222
    · have hfail : _string_to_points G Hash 2 suiteRO ctx msg = none := by
        rw [hguard Hash 2 suiteRO, suiteRO_length]
        omega
      rw [hfail]
      exact iff_of_true rfl h
    · have hok : _string_to_points G Hash 2 suiteRO ctx msg =
          some ((List.range 2).map
            (fun i => G.from_hash (stp_seed Hash 2 suiteRO ctx msg i))) := by
        unfold _string_to_points
        rw [if_neg (by rw [suiteRO_length]; omega)]
      rw [hok]
      refine iff_of_false ?_ h
      show crypto_core_ed25519_add G
        (G.from_hash (stp_seed Hash 2 suiteRO ctx msg 0))
        (G.from_hash (stp_seed Hash 2 suiteRO ctx msg 1)) ≠ none
      obtain ⟨e0, he0, ho0⟩ := hG (stp_seed Hash 2 suiteRO ctx msg 0)
      obtain ⟨e1, he1, ho1⟩ := hG (stp_seed Hash 2 suiteRO ctx msg 1)
      unfold crypto_core_ed25519_add
      rw [he0, he1]
      simp [ho0, ho1]
  · intro hsu hctx
    rw [hguard Hash n suite]
    have : ctx.length ≥ 1 := by
      cases ctx with
      | nil => exact absurd rfl hctx
      | cons a l => simp
    omega
  · intro hn hlen
    rw [Ne, hguard Hash n suite]
    omega

/-- Witness for C6: with the concrete primitive and digest function, a
223-byte context makes the random-oracle variant fail, and an empty
context makes it succeed. -/
theorem string_to_points_guard_witness :
    crypto_core_ed25519_from_string_ro GEw hashW (List.replicate 223 65) [] =
      none ∧
    ¬ crypto_core_ed25519_from_string_ro GEw hashW [] [] = none :=
  ⟨(string_to_points_guard GEw hashW 2 suiteRO (List.replicate 223 65) []
      (fun d => ⟨d.take 32, rfl, rfl⟩)).2.2.2.1.mpr
        (by rw [List.length_replicate]; norm_num),
   fun hc => by
    have h := (string_to_points_guard GEw hashW 2 suiteRO [] []
      (fun d => ⟨d.take 32, rfl, rfl⟩)).2.2.2.1.mp hc
    simp at h⟩
